import Mathlib

/-
  SmartFolio — verification of the finance core.

  Shallow embedding of the numeric core of the SmartFolio portfolio-analysis
  repository: the finance math library (log returns, covariance, Sharpe ratio,
  value-path simulation, drawdown, VaR, health score, weighted portfolio daily
  returns), the date-alignment routine from the Yahoo data module, and the one
  relevant assignment from the API route (the var95 field of PortfolioMetrics).

  JavaScript numbers are modelled as real numbers; `Map` objects are modelled
  as insertion-ordered association lists with `List.lookup`; `x || 0` on a
  possibly-missing numeric map entry is modelled as `Option.getD _ 0`;
  `Math.round` is modelled as `fun x => ⌊x + 1/2⌋`, which agrees with the
  JavaScript semantics (round half toward positive infinity).
-/

namespace SmartFolio

/-- Trading days per year for annualization (finance library constant). -/
def TRADING_DAYS_PER_YEAR : ℕ := 252

/-- Risk-free rate (annualized), fixed at 4% in the finance library. -/
noncomputable def RISK_FREE_RATE : ℝ := 0.04

/-- Z-score for the one-tailed 95% confidence level (finance library constant). -/
noncomputable def Z_SCORE_95 : ℝ := 1.645

/-- Loop body of `calculateLogReturns`: walks consecutive price pairs,
emitting `ln(p / prev)` only when both adjacent prices are strictly positive. -/
noncomputable def lrAux : ℝ → List ℝ → List ℝ
  | _, [] => []
  | prev, p :: rest =>
      (if 0 < prev ∧ 0 < p then [Real.log (p / prev)] else []) ++ lrAux p rest

/-- `calculateLogReturns` from the finance library: daily log returns from a
price series; returns the empty list for fewer than 2 prices, and skips any
step whose adjacent prices are not both strictly positive. -/
noncomputable def calculateLogReturns (prices : List ℝ) : List ℝ :=
  if prices.length < 2 then []
  else
    match prices with
    | [] => []
    | p :: rest => lrAux p rest

/-- `mean` from the finance library: arithmetic mean, 0 for the empty list. -/
noncomputable def mean (values : List ℝ) : ℝ :=
  if values.length = 0 then 0 else values.sum / values.length

/-- `covariance` from the finance library: pairwise sample covariance over the
leading `min`-length prefixes of the two series, with Bessel's correction;
0 when the overlap is shorter than 2. -/
noncomputable def covariance (returns1 returns2 : List ℝ) : ℝ :=
  let n := min returns1.length returns2.length
  if n < 2 then 0
  else
    let mean1 := mean (returns1.take n)
    let mean2 := mean (returns2.take n)
    (((List.range n).map
        (fun i => (returns1.getD i 0 - mean1) * (returns2.getD i 0 - mean2))).sum)
      / ((n : ℝ) - 1)

/-- `buildCovarianceMatrix` from the finance library: the n×n matrix of
annualized pairwise covariances (daily covariance × 252), in ticker order;
a ticker missing from the returns map contributes the empty series. -/
noncomputable def buildCovarianceMatrix (returnsMatrix : List (String × List ℝ))
    (tickers : List String) : List (List ℝ) :=
  tickers.map (fun ti =>
    tickers.map (fun tj =>
      covariance ((returnsMatrix.lookup ti).getD []) ((returnsMatrix.lookup tj).getD [])
        * (TRADING_DAYS_PER_YEAR : ℝ)))

/-- `calculateSharpeRatio` from the finance library: `(return − riskFree) / vol`,
`none` (JavaScript `null`) when the volatility is exactly 0; the risk-free
rate defaults to the fixed 4% constant. -/
noncomputable def calculateSharpeRatio (portfolioReturn portfolioVol : ℝ)
    (riskFreeRate : ℝ := RISK_FREE_RATE) : Option ℝ :=
  if portfolioVol = 0 then none
  else some ((portfolioReturn - riskFreeRate) / portfolioVol)

/-- Loop body of `simulatePortfolioValues`: each log return `r` multiplies the
last value by `1 + (exp r − 1)`, exactly as the source spells the
simple-return bridge. -/
noncomputable def simAux : List ℝ → ℝ → List ℝ
  | [], _ => []
  | ret :: rest, last =>
      let nv := last * (1 + (Real.exp ret - 1))
      nv :: simAux rest nv

/-- `simulatePortfolioValues` from the finance library: value path starting at
`initialValue` (default 1), one further value per daily return. -/
noncomputable def simulatePortfolioValues (portfolioReturns : List ℝ)
    (initialValue : ℝ := 1) : List ℝ :=
  initialValue :: simAux portfolioReturns initialValue

/-- Loop body of `calculateDrawdownSeries`: updates the running maximum when a
strictly larger value is seen, then emits `value / runningMax − 1`. -/
noncomputable def ddAux : List ℝ → ℝ → List ℝ
  | [], _ => []
  | v :: rest, runningMax =>
      let rm := if v > runningMax then v else runningMax
      (v / rm - 1) :: ddAux rest rm

/-- `calculateDrawdownSeries` from the finance library: drawdowns relative to
the running maximum, which starts at the first value. -/
noncomputable def calculateDrawdownSeries (values : List ℝ) : List ℝ :=
  match values with
  | [] => []
  | v0 :: _ => ddAux values v0

/-- `calculateVaR95` from the finance library: parametric 95% VaR,
`z × (annualVol / √252) × √horizon × value`. It always returns a number. -/
noncomputable def calculateVaR95 (portfolioVolatility portfolioValue : ℝ)
    (horizonDays : ℝ := 1) : ℝ :=
  let dailyVol := portfolioVolatility / Real.sqrt (TRADING_DAYS_PER_YEAR : ℝ)
  let horizonVol := dailyVol * Real.sqrt horizonDays
  Z_SCORE_95 * horizonVol * portfolioValue

/-- The `var95` field of the `PortfolioMetrics` record as the API route builds
it: the numeric result of `calculateVaR95(portfolioVol, portfolioValue, 1)` is
assigned unconditionally to the nullable field — there is no null guard. -/
noncomputable def pipelineVar95 (portfolioVol portfolioValue : ℝ) : Option ℝ :=
  some (calculateVaR95 portfolioVol portfolioValue 1)

/-- `HealthScoreComponents` record from the types module: four sub-scores. -/
structure HealthScoreComponents where
  diversificationScore : ℝ
  volatilityScore : ℝ
  drawdownScore : ℝ
  sharpeScore : ℝ

/-- JavaScript `Math.round`: round half toward positive infinity. -/
noncomputable def jsRound (x : ℝ) : ℤ := ⌊x + 1 / 2⌋

/-- `calculateHealthScore` from the finance library: weighted sum of the four
component scores (0.30 / 0.20 / 0.20 / 0.30), clamped to [0,100], rounded. -/
noncomputable def calculateHealthScore (components : HealthScoreComponents) : ℤ :=
  let score :=
    0.3 * components.diversificationScore + 0.2 * components.volatilityScore
      + 0.2 * components.drawdownScore + 0.3 * components.sharpeScore
  jsRound (max 0 (min 100 score))

/-- `calculatePortfolioDailyReturns` from the finance library: minimum series
length across tickers that have a series (`none` plays JavaScript `Infinity`),
then per-day weighted sums, skipping tickers that miss the series or the day. -/
noncomputable def calculatePortfolioDailyReturns (returnsMatrix : List (String × List ℝ))
    (weights : List (String × ℝ)) (tickers : List String) : List ℝ :=
  let minLength : Option ℕ := tickers.foldl (fun acc t =>
    match returnsMatrix.lookup t with
    | some returns => some (match acc with
        | none => returns.length
        | some m => min m returns.length)
    | none => acc) none
  match minLength with
  | none => []
  | some m =>
      if m = 0 then []
      else
        (List.range m).map (fun i =>
          tickers.foldl (fun acc t =>
            match returnsMatrix.lookup t with
            | some returns =>
                match returns.get? i with
                | some r => acc + ((weights.lookup t).getD 0) * r
                | none => acc
            | none => acc) 0)

/-- One row of per-ticker historical data from the Yahoo module: a date
(modelled by its epoch timestamp) and an adjusted close price. -/
structure HistoricalData where
  date : ℤ
  adjClose : ℝ

/-- One ticker's historical rows, `pricesMap.get(ticker) || []` in the source. -/
def tickerData (pricesMap : List (String × List HistoricalData)) (t : String) :
    List HistoricalData :=
  (pricesMap.lookup t).getD []

/-- `dateMaps.get(ticker)?.has(dateTime)` in the source: does the ticker's
per-date map contain the date? Membership is unaffected by the overwriting
of duplicate dates when the map is built. -/
def dateMapHas (pricesMap : List (String × List HistoricalData)) (t : String)
    (d : ℤ) : Bool :=
  (tickerData pricesMap t).any (fun point => point.date == d)

/-- `dateMap.get(date.getTime())!` in the source: the price the ticker's
per-date map holds at the date. The map is built by repeated `set` over the
rows in order, so the last row with that date wins. -/
noncomputable def dateMapGet (pricesMap : List (String × List HistoricalData))
    (t : String) (d : ℤ) : ℝ :=
  ((((tickerData pricesMap t).reverse.find? (fun point => point.date == d)).map
      HistoricalData.adjClose).getD 0)

/-- The `commonDates` collection of `alignPriceData`: the dates of the first
ticker's rows, kept when every ticker has the date, in the first ticker's
row order (before sorting). -/
def commonDatesOf (pricesMap : List (String × List HistoricalData)) : List ℤ :=
  let tickers := pricesMap.map Prod.fst
  let firstData := tickerData pricesMap (tickers.headD "")
  (firstData.filter
      (fun point => tickers.all (fun t => dateMapHas pricesMap t point.date))).map
    HistoricalData.date

/-- `alignPriceData` from the Yahoo module: keeps the dates of the first
ticker's series that every ticker has, sorts them ascending, and reads each
ticker's price at each retained date. Empty input yields the empty result. -/
noncomputable def alignPriceData (pricesMap : List (String × List HistoricalData)) :
    List ℤ × List (String × List ℝ) :=
  let tickers := pricesMap.map Prod.fst
  if tickers.length = 0 then ([], [])
  else
    let sortedDates := List.insertionSort (· ≤ ·) (commonDatesOf pricesMap)
    let alignedPrices :=
      tickers.map (fun t => (t, sortedDates.map (fun d => dateMapGet pricesMap t d)))
    (sortedDates, alignedPrices)

/-- Specification-side view of the log-return computation: consecutive price
pairs, filtered to those with both prices strictly positive, mapped to the
log-ratio of the later over the earlier price. -/
noncomputable def specLogReturns (prices : List ℝ) : List ℝ :=
  ((prices.zip prices.tail).filter (fun q => decide (0 < q.1 ∧ 0 < q.2))).map
    (fun q => Real.log (q.2 / q.1))

/-- Lengths of the return series of exactly those tickers that are present in
the returns map, in ticker order. -/
def presentSeriesLengths (returnsMatrix : List (String × List ℝ))
    (tickers : List String) : List ℕ :=
  tickers.filterMap (fun t => (returnsMatrix.lookup t).map List.length)

/-- Contribution of one ticker to the day-`i` portfolio return, as the
specification words it: weight × return, contributing 0 when the ticker's
series or the index `i` is missing. -/
noncomputable def specDayContribution (returnsMatrix : List (String × List ℝ))
    (weights : List (String × ℝ)) (t : String) (i : ℕ) : ℝ :=
  match returnsMatrix.lookup t with
  | some returns =>
      match returns.get? i with
      | some r => ((weights.lookup t).getD 0) * r
      | none => 0
  | none => 0

/-- Specification-side sample covariance of two equally long lists: mean-centred
products summed, divided by `length − 1` (Bessel's correction). -/
noncomputable def specSampleCov (xs ys : List ℝ) : ℝ :=
  ((List.zipWith (fun a b => (a - mean xs) * (b - mean ys)) xs ys).sum)
    / ((xs.length : ℝ) - 1)

end SmartFolio

namespace SmartFolio

lemma lrAux_eq (rest : List ℝ) : ∀ prev : ℝ,
    lrAux prev rest =
      (((prev :: rest).zip rest).filter (fun q => decide (0 < q.1 ∧ 0 < q.2))).map
        (fun q => Real.log (q.2 / q.1)) := by
  induction rest with
  | nil => intro prev; simp [lrAux]
  | cons p rs ih =>
      intro prev
      simp only [lrAux, List.zip_cons_cons, List.filter_cons, ih p]
      by_cases h : 0 < prev ∧ 0 < p
      · simp [h]
      · simp [h]

lemma calculateLogReturns_eq (prices : List ℝ) :
    calculateLogReturns prices = specLogReturns prices := by
  cases prices with
  | nil => simp [calculateLogReturns, specLogReturns]
  | cons p rest =>
      cases rest with
      | nil => simp [calculateLogReturns, specLogReturns]
      | cons q rs =>
          unfold calculateLogReturns
          rw [if_neg (by simp)]
          simpa [specLogReturns] using lrAux_eq (q :: rs) p

/-- C4: `calculateLogReturns` returns the empty list for fewer than two prices;
otherwise it maps, in order, each consecutive pair whose two prices are both
strictly positive to `ln(pᵢ/pᵢ₋₁)`, skipping every other step, so its length is
`prices.length − 1` minus the number of skipped steps — and exactly
`prices.length − 1` when every price is positive. -/
theorem logReturns_spec (prices : List ℝ) :
    calculateLogReturns prices = specLogReturns prices
    ∧ (prices.length < 2 → calculateLogReturns prices = [])
    ∧ (calculateLogReturns prices).length =
        (prices.length - 1) -
          ((prices.zip prices.tail).filter
            (fun q => !(decide (0 < q.1 ∧ 0 < q.2)))).length
    ∧ ((∀ p ∈ prices, 0 < p) →
        (calculateLogReturns prices).length = prices.length - 1) := by
  have hzlen : (prices.zip prices.tail).length = prices.length - 1 := by
    rw [List.length_zip, List.length_tail]; omega
  have hsplit :=
    List.length_eq_length_filter_add (l := prices.zip prices.tail)
      (fun q => decide (0 < q.1 ∧ 0 < q.2))
  refine ⟨calculateLogReturns_eq prices, ?_, ?_, ?_⟩
  · intro h
    unfold calculateLogReturns
    rw [if_pos h]
  · rw [calculateLogReturns_eq prices, specLogReturns, List.length_map]
    omega
  · intro hpos
    rw [calculateLogReturns_eq prices, specLogReturns, List.length_map]
    have hall : (prices.zip prices.tail).filter
        (fun q => decide (0 < q.1 ∧ 0 < q.2)) = prices.zip prices.tail := by
      apply List.filter_eq_self.mpr
      intro q hq
      have h1 : q.1 ∈ prices := (List.of_mem_zip (by simpa using hq)).1
      have h2 : q.2 ∈ prices :=
        List.mem_of_mem_tail (List.of_mem_zip (a := q.1) (b := q.2) (by simpa using hq)).2
      simp [hpos _ h1, hpos _ h2]
    rw [hall, hzlen]

/-- C4 witness: on the one-element price list `[1]` both hypotheses hold and
the conclusions evaluate: the result is empty, of length `1 − 1 = 0`. -/
theorem logReturns_spec_witness :
    (([(1 : ℝ)].length < 2) ∧ ∀ p ∈ [(1 : ℝ)], 0 < p)
    ∧ calculateLogReturns [(1 : ℝ)] = []
    ∧ (calculateLogReturns [(1 : ℝ)]).length = [(1 : ℝ)].length - 1 :=
  ⟨⟨by norm_num, by norm_num⟩, (logReturns_spec [(1 : ℝ)]).2.1 (by norm_num),
    (logReturns_spec [(1 : ℝ)]).2.2.2 (by norm_num)⟩

/-- C3: the Sharpe ratio is `none` (null) exactly when the volatility is 0,
for every return value; otherwise it is `(return − 0.04) / volatility` with
the fixed 4% risk-free rate. -/
theorem sharpe_null_iff_vol_zero (r v : ℝ) :
    ( calculateSharpeRatio r v = none ↔ v = 0)
    ∧ (v ≠ 0 → calculateSharpeRatio r v = some ((r - 0.04) / v)) := by
  constructor
  · constructor
    · intro h
      by_contra hv
      simp [ calculateSharpeRatio, hv] at h
    · intro h
      simp [ calculateSharpeRatio, h]
  · intro hv
    simp [ calculateSharpeRatio, hv, RISK_FREE_RATE]

/-- C3 witness: at volatility 2 ≠ 0 and return 1 the ratio is the concrete
quotient `(1 − 0.04) / 2`. -/
theorem sharpe_null_iff_vol_zero_witness :
    (2 : ℝ) ≠ 0 ∧ calculateSharpeRatio 1 2 = some ((1 - 0.04) / 2) :=
  ⟨by norm_num, (sharpe_null_iff_vol_zero 1 2).2 (by norm_num)⟩

/-- C2 counterexample: at zero volatility the var95 field built by the API
route holds the number 0 (`some 0`), not null — `calculateVaR95(0, 10000, 1)`
is a numeric result, so the claim that it yields the null VaR value is false. -/
theorem var95_zero_vol_numeric_cex :
    pipelineVar95 0 10000 = some 0 ∧ pipelineVar95 0 10000 ≠ none := by
  have h : calculateVaR95 0 10000 1 = 0 := by
    simp [ calculateVaR95]
  refine ⟨by simp [pipelineVar95, h], by simp [pipelineVar95]⟩

/-- C2 (amended): zero portfolio volatility is degenerate-but-valid: the Sharpe
ratio is null and no division failure occurs in the VaR — but
`calculateVaR95(0, value, horizon)` returns the number 0 for every value and
horizon, and the pipeline stores `some 0`, never null, in the var95 field. -/
theorem zero_vol_sharpe_null_var_zero :
    (∀ r : ℝ, calculateSharpeRatio r 0 = none)
    ∧ (∀ value horizonDays : ℝ,
        calculateVaR95 0 value horizonDays = 0 ∧ pipelineVar95 0 value = some 0) := by
  constructor
  · intro r
    simp [ calculateSharpeRatio]
  · intro value horizonDays
    constructor
    · simp [ calculateVaR95]
    · simp [pipelineVar95, calculateVaR95]

/-- C9: the health score equals the 0.30/0.20/0.20/0.30-weighted sum of the
four component scores, clamped to [0,100], rounded to the nearest integer
(the rounded value is within 1/2 of the clamped sum), and it is always an
integer between 0 and 100. -/
theorem healthScore_clamped_rounded (c : HealthScoreComponents) :
    calculateHealthScore c =
      jsRound (max 0 (min 100
        (0.3 * c.diversificationScore + 0.2 * c.volatilityScore
          + 0.2 * c.drawdownScore + 0.3 * c.sharpeScore)))
    ∧ |((calculateHealthScore c : ℝ)) -
        max 0 (min 100
          (0.3 * c.diversificationScore + 0.2 * c.volatilityScore
            + 0.2 * c.drawdownScore + 0.3 * c.sharpeScore))| ≤ 1 / 2
    ∧ 0 ≤ calculateHealthScore c ∧ calculateHealthScore c ≤ 100 := by
  set s : ℝ := max 0 (min 100
    (0.3 * c.diversificationScore + 0.2 * c.volatilityScore
      + 0.2 * c.drawdownScore + 0.3 * c.sharpeScore)) with hs
  have h0 : 0 ≤ s := le_max_left _ _
  have h100 : s ≤ 100 := max_le (by norm_num) (min_le_left _ _)
  have hdef : calculateHealthScore c = ⌊s + 1 / 2⌋ := rfl
  have hfl := Int.floor_le (s + 1 / 2)
  have hfu := Int.lt_floor_add_one (s + 1 / 2)
  refine ⟨rfl, ?_, ?_, ?_⟩
  · rw [hdef, abs_le]
    constructor <;> linarith
  · rw [hdef]
    have : (0 : ℝ) ≤ s + 1 / 2 := by linarith
    exact_mod_cast Int.le_floor.mpr (by exact_mod_cast this)
  · rw [hdef]
    have h1 : s + 1 / 2 < 101 := by linarith
    have h2 : (⌊s + 1 / 2⌋ : ℝ) < 101 := lt_of_le_of_lt hfl h1
    exact_mod_cast Int.lt_add_one_iff.mp (by exact_mod_cast h2)

lemma foldl_optmin (rm : List (String × List ℝ)) (ts : List String) :
    ∀ acc : Option ℕ,
      ts.foldl (fun acc t =>
        match rm.lookup t with
        | some returns => some (match acc with
            | none => returns.length
            | some m => min m returns.length)
        | none => acc) acc
      = match acc with
        | none => (presentSeriesLengths rm ts).min?
        | some a => some ((presentSeriesLengths rm ts).foldl min a) := by
  induction ts with
  | nil =>
      intro acc
      cases acc <;> simp [presentSeriesLengths]
  | cons t ts' ih =>
      intro acc
      rw [List.foldl_cons]
      cases hl : rm.lookup t with
      | none =>
          cases acc <;>
            simp [hl, ih, presentSeriesLengths, List.filterMap_cons]
      | some rs =>
          cases acc with
          | none =>
              simp only [hl, ih]
              simp [presentSeriesLengths, List.filterMap_cons, hl, List.min?]
          | some a =>
              simp only [hl, ih]
              simp [presentSeriesLengths, List.filterMap_cons, hl]

lemma foldl_optmin_none (rm : List (String × List ℝ)) (ts : List String) :
    ts.foldl (fun acc t =>
      match rm.lookup t with
      | some returns => some (match acc with
          | none => returns.length
          | some m => min m returns.length)
      | none => acc) none
    = (presentSeriesLengths rm ts).min? := by
  simpa using foldl_optmin rm ts none

lemma dayStep_eq (rm : List (String × List ℝ)) (w : List (String × ℝ)) (i : ℕ)
    (acc : ℝ) (t : String) :
    (match rm.lookup t with
     | some returns =>
         match returns.get? i with
         | some r => acc + ((w.lookup t).getD 0) * r
         | none => acc
     | none => acc)
    = acc + specDayContribution rm w t i := by
  unfold specDayContribution
  cases rm.lookup t with
  | none => simp
  | some rs => cases hr : rs[i]? <;> simp [hr]

lemma foldl_day (rm : List (String × List ℝ)) (w : List (String × ℝ)) (i : ℕ)
    (ts : List String) : ∀ acc : ℝ,
    ts.foldl (fun acc t =>
      match rm.lookup t with
      | some returns =>
          match returns.get? i with
          | some r => acc + ((w.lookup t).getD 0) * r
          | none => acc
      | none => acc) acc
    = acc + (ts.map (fun t => specDayContribution rm w t i)).sum := by
  induction ts with
  | nil => intro acc; simp
  | cons t ts' ih =>
      intro acc
      rw [List.foldl_cons, dayStep_eq, ih]
      simp [add_assoc]

/-- C1 (amended): `calculatePortfolioDailyReturns` has, at each time index `i`
below the minimum length over the series of the tickers that have one, the sum
over the tickers of `weight × return[i]` (a ticker missing its series or the
index contributes 0); the output length is that minimum — a ticker with no
series at all is excluded from the minimum rather than forcing length 0, and
the output is empty exactly when no ticker has a series or the minimum is 0. -/
theorem portfolioDailyReturns_min_present_spec (rm : List (String × List ℝ))
    (w : List (String × ℝ)) (ts : List String) :
    calculatePortfolioDailyReturns rm w ts =
      (match (presentSeriesLengths rm ts).min? with
       | none => []
       | some m => (List.range m).map (fun i =>
           (ts.map (fun t => specDayContribution rm w t i)).sum))
    ∧ (calculatePortfolioDailyReturns rm w ts).length =
        ((presentSeriesLengths rm ts).min?).getD 0 := by
  have hmain : calculatePortfolioDailyReturns rm w ts =
      (match (presentSeriesLengths rm ts).min? with
       | none => []
       | some m => (List.range m).map (fun i =>
           (ts.map (fun t => specDayContribution rm w t i)).sum)) := by
    simp only [calculatePortfolioDailyReturns]
    rw [foldl_optmin_none rm ts]
    cases hm : (presentSeriesLengths rm ts).min? with
    | none => rfl
    | some m =>
        dsimp only
        by_cases hm0 : m = 0
        · subst hm0; simp
        · rw [if_neg hm0]
          apply List.map_congr_left
          intro i _
          rw [foldl_day, zero_add]
  refine ⟨hmain, ?_⟩
  rw [hmain]
  cases hm : (presentSeriesLengths rm ts).min? <;> simp

/-- C1 counterexample: with tickers `["A", "B"]` where only `"A"` has a series
(of length 1), the output has length 1, not 0 — a ticker with no series at all
does not force the output length to 0, contrary to the claim's final clause. -/
theorem portfolioDailyReturns_missing_ticker_cex :
    (calculatePortfolioDailyReturns [("A", [(1 : ℝ)])] [("A", (1 : ℝ))]
        ["A", "B"]).length = 1
    ∧ (1 : ℕ) ≠ 0 := by
  constructor
  · simp [calculatePortfolioDailyReturns, List.lookup]
  · decide

lemma getD_map_of_lt {α β : Type} (f : α → β) (l : List α) (i : ℕ)
    (h : i < l.length) (d : β) (d' : α) : (l.map f).getD i d = f (l.getD i d') := by
  have h' : i < (l.map f).length := by simpa using h
  rw [List.getD_eq_getElem _ _ h', List.getD_eq_getElem _ _ h, List.getElem_map]

lemma getD_take_of_lt (l : List ℝ) (n i : ℕ) (h : i < n) (hn : n ≤ l.length) :
    (l.take n).getD i 0 = l.getD i 0 := by
  have hi : i < l.length := lt_of_lt_of_le h hn
  have hti : i < (l.take n).length := by
    rw [List.length_take]; omega
  rw [List.getD_eq_getElem _ _ hti, List.getD_eq_getElem _ _ hi]
  exact List.getElem_take ..

lemma covariance_comm (r1 r2 : List ℝ) : covariance r1 r2 = covariance r2 r1 := by
  simp only [covariance]
  rw [min_comm r2.length r1.length]
  by_cases h : min r1.length r2.length < 2
  · simp [h]
  · rw [if_neg h, if_neg h]
    congr 1
    exact congrArg List.sum (List.map_congr_left fun i _ => by ring)

lemma covariance_eq_specSampleCov (r1 r2 : List ℝ)
    (h : ¬ min r1.length r2.length < 2) :
    covariance r1 r2 =
      specSampleCov (r1.take (min r1.length r2.length))
        (r2.take (min r1.length r2.length)) := by
  set n := min r1.length r2.length with hn
  have hn1 : n ≤ r1.length := min_le_left _ _
  have hn2 : n ≤ r2.length := min_le_right _ _
  have hlen1 : (r1.take n).length = n := by
    rw [List.length_take]; omega
  have hlen2 : (r2.take n).length = n := by
    rw [List.length_take]; omega
  have hzip : List.zipWith
      (fun a b => (a - mean (r1.take n)) * (b - mean (r2.take n)))
      (r1.take n) (r2.take n)
      = (List.range n).map
          (fun i => (r1.getD i 0 - mean (r1.take n)) * (r2.getD i 0 - mean (r2.take n))) := by
    have key : ∀ (xs ys : List ℝ) (g : ℝ → ℝ → ℝ), xs.length = ys.length →
        List.zipWith g xs ys
          = (List.range xs.length).map (fun i => g (xs.getD i 0) (ys.getD i 0)) := by
      intro xs
      induction xs with
      | nil => intro ys g _; simp
      | cons x xs' ih =>
          intro ys g hlen
          cases ys with
          | nil => simp at hlen
          | cons y ys' =>
              simp only [List.zipWith_cons_cons, List.length_cons,
                List.range_succ_eq_map, List.map_cons, List.map_map]
              congr 1
              rw [ih ys' g (by simpa using hlen)]
              apply List.map_congr_left
              intro i _
              simp [Function.comp]
    rw [key _ _ _ (by rw [hlen1, hlen2]), hlen1]
    apply List.map_congr_left
    intro i hi
    rw [List.mem_range] at hi
    rw [getD_take_of_lt r1 n i hi hn1, getD_take_of_lt r2 n i hi hn2]
  simp only [covariance, specSampleCov, ← hn, if_neg h, hzip, hlen1]

/-- C5: `buildCovarianceMatrix` yields an n×n matrix whose cell (i, j) is
252 × the Bessel-corrected sample covariance of the leading min-length
prefixes of series i and j (0 when that overlap is below 2, diagonal
included), and the matrix is symmetric: cell (i, j) = cell (j, i). -/
theorem covMatrix_symm_annualized (rm : List (String × List ℝ))
    (tickers : List String) (i j : ℕ)
    (hi : i < tickers.length) (hj : j < tickers.length) :
    (buildCovarianceMatrix rm tickers).length = tickers.length
    ∧ (∀ row ∈ buildCovarianceMatrix rm tickers, row.length = tickers.length)
    ∧ ((buildCovarianceMatrix rm tickers).getD i []).getD j 0
        = ((buildCovarianceMatrix rm tickers).getD j []).getD i 0
    ∧ ((buildCovarianceMatrix rm tickers).getD i []).getD j 0
        = (if min ((rm.lookup (tickers.getD i "")).getD []).length
                 ((rm.lookup (tickers.getD j "")).getD []).length < 2 then 0
           else 252 * specSampleCov
             (((rm.lookup (tickers.getD i "")).getD []).take
               (min ((rm.lookup (tickers.getD i "")).getD []).length
                    ((rm.lookup (tickers.getD j "")).getD []).length))
             (((rm.lookup (tickers.getD j "")).getD []).take
               (min ((rm.lookup (tickers.getD i "")).getD []).length
                    ((rm.lookup (tickers.getD j "")).getD []).length))) := by
  have hcell : ∀ a b : ℕ, a < tickers.length → b < tickers.length →
      ((buildCovarianceMatrix rm tickers).getD a []).getD b 0
        = covariance ((rm.lookup (tickers.getD a "")).getD [])
            ((rm.lookup (tickers.getD b "")).getD []) * (TRADING_DAYS_PER_YEAR : ℝ) := by
    intro a b ha hb
    unfold buildCovarianceMatrix
    rw [getD_map_of_lt _ tickers a ha [] ""]
    rw [getD_map_of_lt _ tickers b hb 0 ""]
  refine ⟨by simp [buildCovarianceMatrix], ?_, ?_, ?_⟩
  · intro row hrow
    unfold buildCovarianceMatrix at hrow
    obtain ⟨t, _, rfl⟩ := List.mem_map.mp hrow
    simp
  · rw [hcell i j hi hj, hcell j i hj hi, covariance_comm]
  · rw [hcell i j hi hj]
    set ri := (rm.lookup (tickers.getD i "")).getD []
    set rj := (rm.lookup (tickers.getD j "")).getD []
    by_cases h : min ri.length rj.length < 2
    · rw [if_pos h]
      simp only [covariance, if_pos h]
      ring
    · rw [if_neg h, covariance_eq_specSampleCov ri rj h]
      have : (TRADING_DAYS_PER_YEAR : ℝ) = 252 := by
        norm_num [TRADING_DAYS_PER_YEAR]
      rw [this]
      ring

/-- C5 witness: a concrete 2×2 instance — the matrix of two length-2 series is
2×2, and the theorem applies at indices 0 and 1. -/
theorem covMatrix_symm_annualized_witness :
    ((0 : ℕ) < (["A", "B"] : List String).length
      ∧ (1 : ℕ) < (["A", "B"] : List String).length)
    ∧ (buildCovarianceMatrix [("A", [(0.1 : ℝ), 0.2]), ("B", [(0.2 : ℝ), 0.4])]
        ["A", "B"]).length = 2 :=
  ⟨⟨by norm_num, by norm_num⟩, by
    simpa using (covMatrix_symm_annualized
      [("A", [(0.1 : ℝ), 0.2]), ("B", [(0.2 : ℝ), 0.4])] ["A", "B"] 0 1
      (by norm_num) (by norm_num)).1⟩

lemma runMax_eq (v rm : ℝ) : (if v > rm then v else rm) = max rm v := by
  rcases le_or_lt v rm with h | h
  · rw [if_neg (not_lt.mpr h), max_eq_left h]
  · rw [if_pos h, max_eq_right h.le]

lemma ddAux_length : ∀ (vs : List ℝ) (rm : ℝ), (ddAux vs rm).length = vs.length := by
  intro vs
  induction vs with
  | nil => intro rm; simp [ddAux]
  | cons v rest ih => intro rm; simp [ddAux, ih]

lemma le_foldl_max : ∀ (l : List ℝ) (a : ℝ), a ≤ l.foldl max a := by
  intro l
  induction l with
  | nil => intro a; simp
  | cons x l' ih =>
      intro a
      calc a ≤ max a x := le_max_left a x
        _ ≤ (l').foldl max (max a x) := ih (max a x)
        _ = (x :: l').foldl max a := by rw [List.foldl_cons]

lemma mem_le_foldl_max : ∀ (l : List ℝ) (a : ℝ), ∀ x ∈ l, x ≤ l.foldl max a := by
  intro l
  induction l with
  | nil => intro a x hx; simp at hx
  | cons y l' ih =>
      intro a x hx
      rcases List.mem_cons.mp hx with rfl | hx'
      · calc x ≤ max a x := le_max_right a x
          _ ≤ (l').foldl max (max a x) := le_foldl_max l' (max a x)
          _ = (x :: l').foldl max a := by rw [List.foldl_cons]
      · rw [List.foldl_cons]
        exact ih (max a y) x hx'

lemma foldl_max_cases : ∀ (l : List ℝ) (a : ℝ), l.foldl max a = a ∨ l.foldl max a ∈ l := by
  intro l
  induction l with
  | nil => intro a; left; rfl
  | cons y l' ih =>
      intro a
      rw [List.foldl_cons]
      rcases ih (max a y) with h | h
      · rcases max_choice a y with hc | hc
        · left; rw [h, hc]
        · right; rw [h, hc]; exact List.mem_cons_self y l'
      · right; exact List.mem_cons_of_mem y h

lemma getD_mem_self (l : List ℝ) (i : ℕ) (h : i < l.length) : l.getD i 0 ∈ l := by
  rw [List.getD_eq_getElem _ _ h]
  exact List.getElem_mem h

lemma ddAux_getD : ∀ (vs : List ℝ) (rm : ℝ) (i : ℕ), i < vs.length →
    (ddAux vs rm).getD i 0 = vs.getD i 0 / ((vs.take (i + 1)).foldl max rm) - 1 := by
  intro vs
  induction vs with
  | nil => intro rm i h; simp at h
  | cons v rest ih =>
      intro rm i h
      cases i with
      | zero =>
          simp only [ddAux, runMax_eq, List.getD_cons_zero, List.take_succ_cons,
            List.take_zero, List.foldl_cons, List.foldl_nil]
      | succ i' =>
          have hi' : i' < rest.length := by simpa using h
          simp only [ddAux, runMax_eq, List.getD_cons_succ, List.take_succ_cons,
            List.foldl_cons]
          exact ih (max rm v) i' hi'

/-- C6: on a non-empty list of strictly positive values, the drawdown series
has the same length, every entry is ≤ 0, and an entry is 0 exactly at the
indices where the value attains the running maximum (is ≥ every value up to
and including itself). -/
theorem drawdown_nonpos_iff_peak (values : List ℝ) (hne : values ≠ [])
    (hpos : ∀ v ∈ values, 0 < v) :
    (calculateDrawdownSeries values).length = values.length
    ∧ ∀ i, i < values.length →
        ((calculateDrawdownSeries values).getD i 0 ≤ 0
         ∧ ((calculateDrawdownSeries values).getD i 0 = 0 ↔
              ∀ x ∈ values.take (i + 1), x ≤ values.getD i 0)) := by
  obtain ⟨v0, rest, rfl⟩ := List.exists_cons_of_ne_nil hne
  have hdd : calculateDrawdownSeries (v0 :: rest) = ddAux (v0 :: rest) v0 := rfl
  refine ⟨by rw [hdd, ddAux_length], ?_⟩
  intro i hi
  rw [hdd, ddAux_getD (v0 :: rest) v0 i hi]
  set vs := v0 :: rest with hvs
  set P := (vs.take (i + 1)).foldl max v0 with hP
  have hv0_mem : v0 ∈ vs.take (i + 1) := by
    rw [hvs, List.take_succ_cons]
    exact List.mem_cons_self v0 _
  have hPmem : P ∈ vs.take (i + 1) := by
    rcases foldl_max_cases (vs.take (i + 1)) v0 with h | h
    · rw [hP, h]; exact hv0_mem
    · exact h
  have hvi_mem : vs.getD i 0 ∈ vs.take (i + 1) := by
    have h1 : (vs.take (i + 1)).getD i 0 ∈ vs.take (i + 1) := by
      apply getD_mem_self
      rw [List.length_take]
      omega
    rwa [getD_take_of_lt vs (i + 1) i (by omega) (by omega)] at h1
  have hPpos : 0 < P := hpos _ (List.mem_of_mem_take hPmem)
  have hle : vs.getD i 0 ≤ P := mem_le_foldl_max _ v0 _ hvi_mem
  constructor
  · have hq : vs.getD i 0 / P ≤ 1 := (div_le_one hPpos).mpr hle
    linarith
  · have hq : vs.getD i 0 / P - 1 = 0 ↔ vs.getD i 0 = P := by
      constructor
      · intro h
        have : vs.getD i 0 / P = 1 := by linarith
        exact (div_eq_one_iff_eq (ne_of_gt hPpos)).mp this
      · intro h
        rw [h, div_self (ne_of_gt hPpos)]
        ring
    rw [hq]
    constructor
    · intro h x hx
      rw [h]
      exact mem_le_foldl_max _ v0 _ hx
    · intro h
      exact le_antisymm hle (h P hPmem)

/-- C6 witness: the positive, non-empty value list `[1, 2]` satisfies both
hypotheses, and its drawdown series has length 2. -/
theorem drawdown_nonpos_iff_peak_witness :
    (([(1 : ℝ), 2] ≠ []) ∧ ∀ v ∈ [(1 : ℝ), 2], 0 < v)
    ∧ (calculateDrawdownSeries [(1 : ℝ), 2]).length = 2 :=
  ⟨⟨by simp, by norm_num⟩, by
    simpa using (drawdown_nonpos_iff_peak [(1 : ℝ), 2] (by simp) (by norm_num)).1⟩

lemma simAux_pos : ∀ (rets : List ℝ) (last : ℝ), 0 < last →
    ∀ v ∈ simAux rets last, 0 < v := by
  intro rets
  induction rets with
  | nil => intro last _ v hv; simp [simAux] at hv
  | cons r rest ih =>
      intro last hlast v hv
      have hnv : 0 < last * (1 + (Real.exp r - 1)) := by
        have h1 : (1 : ℝ) + (Real.exp r - 1) = Real.exp r := by ring
        rw [h1]
        exact mul_pos hlast (Real.exp_pos r)
      simp only [simAux, List.mem_cons] at hv
      rcases hv with rfl | hv
      · exact hnv
      · exact ih _ hnv v hv

lemma simAux_chain : ∀ (rets : List ℝ) (last : ℝ), 0 < last →
    (∀ r ∈ rets, 0 < r) → List.Chain' (· ≤ ·) (last :: simAux rets last) := by
  intro rets
  induction rets with
  | nil => intro last _ _; simp [simAux]
  | cons r rest ih =>
      intro last hlast hr
      have hexp : 1 < Real.exp r := by
        have h1 := Real.add_one_le_exp r
        have h2 : 0 < r := hr r (List.mem_cons_self r rest)
        linarith
      have hnv : last ≤ last * (1 + (Real.exp r - 1)) := by
        nlinarith
      have hnvpos : 0 < last * (1 + (Real.exp r - 1)) := by nlinarith
      simp only [simAux]
      rw [List.chain'_cons]
      exact ⟨hnv, ih _ hnvpos (fun r' h' => hr r' (List.mem_cons_of_mem r h'))⟩

lemma chain_lt_zip_tail : ∀ (p : List ℝ), List.Chain' (· < ·) p →
    ∀ q ∈ p.zip p.tail, q.1 < q.2 := by
  intro p
  induction p with
  | nil => intro _ q hq; simp at hq
  | cons a rest ih =>
      intro hc q hq
      cases rest with
      | nil => simp at hq
      | cons b rs =>
          rw [List.chain'_cons] at hc
          simp only [List.tail_cons, List.zip_cons_cons, List.mem_cons] at hq
          rcases hq with rfl | hq
          · exact hc.1
          · exact ih hc.2 q (by simpa using hq)

lemma logReturns_pos (prices : List ℝ) (hpos : ∀ p ∈ prices, 0 < p)
    (hmono : List.Chain' (· < ·) prices) :
    ∀ r ∈ calculateLogReturns prices, 0 < r := by
  intro r hr
  rw [calculateLogReturns_eq, specLogReturns] at hr
  simp only [List.mem_map, List.mem_filter, decide_eq_true_eq] at hr
  obtain ⟨q, ⟨hqz, hq1, hq2⟩, rfl⟩ := hr
  have hlt := chain_lt_zip_tail prices hmono q hqz
  exact Real.log_pos ((one_lt_div hq1).mpr hlt)

/-- C7: simulating a value path from the log returns of a strictly increasing
list of positive prices yields a monotonically increasing value path, for any
positive initial value. -/
theorem logReturns_simulate_roundtrip (prices : List ℝ) (initialValue : ℝ)
    (hpos : ∀ p ∈ prices, 0 < p) (hmono : List.Chain' (· < ·) prices)
    (hv : 0 < initialValue) :
    List.Chain' (· ≤ ·)
      (simulatePortfolioValues (calculateLogReturns prices) initialValue) := by
  unfold simulatePortfolioValues
  exact simAux_chain _ _ hv (logReturns_pos prices hpos hmono)

/-- C7 witness: the strictly increasing positive price list `[1, 2]` with
initial value 1 satisfies the hypotheses, and the resulting value path is
monotonically increasing. -/
theorem logReturns_simulate_roundtrip_witness :
    ((∀ p ∈ [(1 : ℝ), 2], 0 < p) ∧ List.Chain' (· < ·) [(1 : ℝ), 2] ∧ (0 : ℝ) < 1)
    ∧ List.Chain' (· ≤ ·)
        (simulatePortfolioValues (calculateLogReturns [(1 : ℝ), 2]) 1) :=
  ⟨⟨by norm_num, by simp [List.chain'_cons], by norm_num⟩,
    logReturns_simulate_roundtrip [(1 : ℝ), 2] 1 (by norm_num)
      (by simp [List.chain'_cons]) (by norm_num)⟩

lemma ddAux_bounds : ∀ (vs : List ℝ) (rm : ℝ), 0 < rm → (∀ v ∈ vs, 0 < v) →
    ∀ x ∈ ddAux vs rm, -1 < x ∧ x ≤ 0 := by
  intro vs
  induction vs with
  | nil => intro rm _ _ x hx; simp [ddAux] at hx
  | cons v rest ih =>
      intro rm hrm hpos x hx
      have hv : 0 < v := hpos v (List.mem_cons_self v rest)
      have hmax : 0 < max rm v := lt_of_lt_of_le hrm (le_max_left rm v)
      simp only [ddAux, runMax_eq, List.mem_cons] at hx
      rcases hx with rfl | hx
      · constructor
        · have : 0 < v / max rm v := div_pos hv hmax
          linarith
        · have : v / max rm v ≤ 1 := (div_le_one hmax).mpr (le_max_right rm v)
          linarith
      · exact ih (max rm v) hmax (fun v' h' => hpos v' (List.mem_cons_of_mem v h')) x hx

/-- C10: with a positive initial value, every simulated portfolio value is
strictly positive (each step multiplies by `exp r > 0`), so the drawdown
computation never divides by a non-positive running maximum and every
drawdown entry is a finite number in the half-open interval (−1, 0]. -/
theorem simulate_drawdown_safety (portfolioReturns : List ℝ) (initialValue : ℝ)
    (hv : 0 < initialValue) :
    (∀ v ∈ simulatePortfolioValues portfolioReturns initialValue, 0 < v)
    ∧ ∀ x ∈ calculateDrawdownSeries
        (simulatePortfolioValues portfolioReturns initialValue),
        -1 < x ∧ x ≤ 0 := by
  have hposall : ∀ v ∈ simulatePortfolioValues portfolioReturns initialValue, 0 < v := by
    intro v hmem
    simp only [simulatePortfolioValues, List.mem_cons] at hmem
    rcases hmem with rfl | hmem
    · exact hv
    · exact simAux_pos portfolioReturns initialValue hv v hmem
  refine ⟨hposall, ?_⟩
  have hdd : calculateDrawdownSeries (simulatePortfolioValues portfolioReturns initialValue)
      = ddAux (simulatePortfolioValues portfolioReturns initialValue) initialValue := rfl
  rw [hdd]
  exact ddAux_bounds _ initialValue hv hposall

/-- C10 witness: at the empty return list and initial value 1, the hypothesis
holds and every value of the (one-element) path is positive. -/
theorem simulate_drawdown_safety_witness :
    (0 : ℝ) < 1 ∧ ∀ v ∈ simulatePortfolioValues [] 1, 0 < v :=
  ⟨by norm_num, (simulate_drawdown_safety [] 1 (by norm_num)).1⟩

lemma alignPriceData_fst_cons (hd : String × List HistoricalData)
    (tl : List (String × List HistoricalData)) :
    (alignPriceData (hd :: tl)).1
      = List.insertionSort (· ≤ ·) (commonDatesOf (hd :: tl)) := by
  simp [alignPriceData]

lemma alignPriceData_snd_cons (hd : String × List HistoricalData)
    (tl : List (String × List HistoricalData)) :
    (alignPriceData (hd :: tl)).2
      = ((hd :: tl).map Prod.fst).map (fun t =>
          (t, (List.insertionSort (· ≤ ·) (commonDatesOf (hd :: tl))).map
            (fun d => dateMapGet (hd :: tl) t d))) := by
  simp [alignPriceData]

lemma mem_commonDatesOf (hd : String × List HistoricalData)
    (tl : List (String × List HistoricalData)) (d : ℤ) :
    d ∈ commonDatesOf (hd :: tl) ↔
      ∀ t ∈ (hd :: tl).map Prod.fst,
        d ∈ (tickerData (hd :: tl) t).map HistoricalData.date := by
  obtain ⟨t0, d0⟩ := hd
  have hhead : ((((t0, d0) :: tl).map Prod.fst).headD "") = t0 := by simp
  have hdata0 : tickerData ((t0, d0) :: tl) t0 = d0 := by
    simp [tickerData, List.lookup]
  constructor
  · intro hmem t ht
    simp only [commonDatesOf, hhead, hdata0, List.mem_map, List.mem_filter,
      List.all_eq_true] at hmem
    obtain ⟨point, ⟨_, hcond⟩, hpt_date⟩ := hmem
    have hht := hcond t (by simpa [eq_comm] using ht)
    simp only [dateMapHas, List.any_eq_true, beq_iff_eq] at hht
    obtain ⟨pt, hpt, hdd⟩ := hht
    simp only [List.mem_map]
    exact ⟨pt, hpt, by rw [hdd, hpt_date]⟩
  · intro hall
    have h0 := hall t0 (by simp)
    simp only [List.mem_map, hdata0] at h0
    obtain ⟨point, hpt_mem, hpt_date⟩ := h0
    simp only [commonDatesOf, hhead, hdata0, List.mem_map, List.mem_filter,
      List.all_eq_true]
    refine ⟨point, ⟨hpt_mem, ?_⟩, hpt_date⟩
    intro t ht
    have hht := hall t (by simpa [eq_comm] using ht)
    simp only [List.mem_map] at hht
    obtain ⟨pt, hpt, hdd⟩ := hht
    simp only [dateMapHas, List.any_eq_true, beq_iff_eq]
    exact ⟨pt, hpt, by rw [hdd, hpt_date]⟩

/-- C8: `alignPriceData` returns an ascending-sorted date list; every ticker's
aligned price array has exactly the date list's length, with one output entry
per input ticker; zero input tickers give the empty result; and a date is
retained exactly when every ticker's date set contains it — so the retained
date set is the set intersection of the tickers' date sets and is independent
of the price values. -/
theorem alignPriceData_invariants (pricesMap : List (String × List HistoricalData)) :
    List.Sorted (· ≤ ·) (alignPriceData pricesMap).1
    ∧ (∀ entry ∈ (alignPriceData pricesMap).2,
        entry.2.length = ((alignPriceData pricesMap).1).length)
    ∧ ((alignPriceData pricesMap).2).map Prod.fst = pricesMap.map Prod.fst
    ∧ (pricesMap = [] → alignPriceData pricesMap = ([], []))
    ∧ (pricesMap ≠ [] → ∀ d : ℤ,
        d ∈ (alignPriceData pricesMap).1 ↔
          ∀ t ∈ pricesMap.map Prod.fst,
            d ∈ (tickerData pricesMap t).map HistoricalData.date) := by
  cases pricesMap with
  | nil =>
      refine ⟨?_, ?_, ?_, ?_, ?_⟩ <;> simp [alignPriceData]
  | cons hd tl =>
      refine ⟨?_, ?_, ?_, ?_, ?_⟩
      · rw [alignPriceData_fst_cons]
        exact List.sorted_insertionSort _ _
      · intro entry hentry
        rw [alignPriceData_snd_cons] at hentry
        obtain ⟨t, _, rfl⟩ := List.mem_map.mp hentry
        rw [alignPriceData_fst_cons]
        simp
      · rw [alignPriceData_snd_cons]
        simp [List.map_map, Function.comp]
      · intro h
        exact absurd h (by simp)
      · intro _ d
        rw [alignPriceData_fst_cons,
          (List.perm_insertionSort (· ≤ ·) (commonDatesOf (hd :: tl))).mem_iff]
        exact mem_commonDatesOf hd tl d

/-- C8 witness: a concrete two-ticker map is non-empty, and the retained-date
characterization holds for it: a date is in the aligned output exactly when
both tickers' date sets contain it. -/
theorem alignPriceData_invariants_witness :
    ([("A", [HistoricalData.mk 2 10, HistoricalData.mk 1 11]),
        ("B", [HistoricalData.mk 1 20])]
      ≠ ([] : List (String × List HistoricalData)))
    ∧ ∀ d : ℤ,
        d ∈ (alignPriceData [("A", [HistoricalData.mk 2 10, HistoricalData.mk 1 11]),
              ("B", [HistoricalData.mk 1 20])]).1 ↔
          ∀ t ∈ ([("A", [HistoricalData.mk 2 10, HistoricalData.mk 1 11]),
                ("B", [HistoricalData.mk 1 20])]).map Prod.fst,
            d ∈ (tickerData [("A", [HistoricalData.mk 2 10, HistoricalData.mk 1 11]),
                  ("B", [HistoricalData.mk 1 20])] t).map HistoricalData.date :=
  ⟨by simp, (alignPriceData_invariants _).2.2.2.2 (by simp)⟩

end SmartFolio
